import Mathlib

/-!
# Verification of the PI_lego Maya/Houdini interop scripts

Shallow embedding of the pure data-manipulation parts of the repository:

* `maya_meta_export.py` / `maya_export_helpers.py` : `_world_matrix` chunking,
  `_dag_to_unix_path`;
* `houdiniImporMedaDane.py` : `_norm`, `_parse_matrix16`, the `rec_map`
  building loop, and the translation attributes set in the main loop;
* `houiniImportHelper.py` : the helper-point creation loop;
* `import_helpers_to_houdini.py` : `matrix_list_to_hou_matrix4`,
  `import_helpers`;
* `maya_export_alembic_helpers.py` : `get_toplevel_roots`.

Modelling conventions:

* Python numbers (ints and floats) are modelled as exact rationals `ℚ`;
  no claim below concerns floating-point rounding, only which entries are
  produced, copied or scaled.
* JSON-decoded Python values are modelled by the inductive type `PyVal`
  (JSON cannot produce tuples, so only lists appear; `isinstance(x, int)`
  holds for Python booleans, which `isNum` reflects).
* Python `float(x)` raises on values that are not numbers; this is modelled
  by `pyFloat` returning `Except`.  `float` applied to a numeric string can
  succeed in Python; no claim below evaluates that case, and `pyFloat`
  conservatively signals an error for every string.
* `json.loads` is kept as an explicit parameter `load : String → Option PyVal`
  of `parse_matrix16`; all theorems about it hold for every decoder.
* Raised exceptions are modelled with `Except`; the error payload only
  distinguishes exception classes where a claim needs it.
-/

namespace PiLego

/-- JSON-decoded Python values (`json.loads` output shapes). -/
inductive PyVal where
  | pynone
  | bool (b : Bool)
  | int (n : Int)
  | float (q : ℚ)
  | str (s : String)
  | list (l : List PyVal)
  | dict (l : List (String × PyVal))

/-- Python truthiness (`bool(v)`) on JSON-decoded values. -/
def truthy : PyVal → Bool
  | .pynone => false
  | .bool b => b
  | .int n => n != 0
  | .float q => q != 0
  | .str s => s ≠ ""
  | .list l => ¬ l.isEmpty
  | .dict l => ¬ l.isEmpty

/-- `isinstance(x, (int, float))`; Python booleans are instances of `int`. -/
def isNum : PyVal → Bool
  | .bool _ => true
  | .int _ => true
  | .float _ => true
  | _ => false

/-- Numeric value of a number (`float(x)` on an int/float/bool). -/
def numVal : PyVal → ℚ
  | .bool b => if b then 1 else 0
  | .int n => (n : ℚ)
  | .float q => q
  | _ => 0

/-- Python `float(x)`: succeeds on numbers, raises otherwise
(numeric strings are not modelled; no theorem depends on them). -/
def pyFloat (v : PyVal) : Except Unit ℚ :=
  if isNum v then .ok (numVal v) else .error ()

/-- Row test of `_parse_matrix16` case 3:
`isinstance(r, (list, tuple)) and len(r) == 4`. -/
def isRow4 : PyVal → Bool
  | .list r => r.length = 4
  | _ => false

/-- The elements of a row (only used under `isRow4`). -/
def rowElems : PyVal → List PyVal
  | .list r => r
  | _ => []

/-- `float` applied to each element in turn, stopping at the first failure
(models a Python loop or generator that converts with `float(x)`). -/
def floatList : List PyVal → Except Unit (List ℚ)
  | [] => .ok []
  | v :: rest =>
    match pyFloat v, floatList rest with
    | .ok x, .ok xs => .ok (x :: xs)
    | .error e, _ => .error e
    | _, .error e => .error e

/-- Cases 2 and 3 of `houdiniImporMedaDane._parse_matrix16` (the part after
the optional `json.loads`): a list of 16 numbers is converted to 16 floats;
a list of 4 rows of length 4 is flattened with `float` applied to every
entry (which raises on non-numeric entries); anything else yields `None`. -/
def parse_core (v : PyVal) : Except Unit (Option (List ℚ)) :=
  match v with
  | .list l =>
    if l.length = 16 ∧ l.all isNum then .ok (some (l.map numVal))
    else if l.length = 4 ∧ l.all isRow4 then
      match floatList (l.map rowElems).flatten with
      | .ok flat => .ok (some flat)
      | .error e => .error e
    else .ok none
  | _ => .ok none

/-- `houdiniImporMedaDane._parse_matrix16`: strings are first JSON-decoded
(`None` on decode failure), then cases 2/3 apply (`parse_core`). -/
def parse_matrix16 (load : String → Option PyVal) : PyVal → Except Unit (Option (List ℚ))
  | .str s =>
    match load s with
    | none => .ok none
    | some w => parse_core w
  | v => parse_core v

/-- Python slice `m[a:b]` (for `0 ≤ a ≤ b ≤ len m`). -/
def pySlice (m : List ℚ) (a b : Nat) : List ℚ := (m.drop a).take (b - a)

/-- `_world_matrix` chunking (`maya_meta_export.py` line 16 and
`maya_export_helpers.py` line 45): `[m[0:4], m[4:8], m[8:12], m[12:16]]`. -/
def world_matrix_chunk (m : List ℚ) : List (List ℚ) :=
  [pySlice m 0 4, pySlice m 4 8, pySlice m 8 12, pySlice m 12 16]

/-- The helper importer's flattening comprehension
(`houiniImportHelper.py` line 46):
`[item for sublist in matrix_list_of_lists for item in sublist]`. -/
def flat_matrix_list (M : List (List ℚ)) : List ℚ := M.flatten

/-- Row list of the JSON encoding of a nested numeric matrix. -/
def encRows (M : List (List ℚ)) : List PyVal :=
  M.map (fun r => .list (r.map PyVal.float))

/-- Encoding of a nested numeric matrix as the JSON value the exporters
serialize (a list of lists of floats). -/
def encodeMatrix (M : List (List ℚ)) : PyVal :=
  .list (encRows M)

/-- `import_helpers_to_houdini.UNIT_SCALE = 0.01` (Maya cm to Houdini m). -/
def UNIT_SCALE : ℚ := 1 / 100

/-- Row-by-row numeric conversion used by the `hou.Matrix4` model. -/
def rowsFloatList : List PyVal → Except Unit (List (List ℚ))
  | [] => .ok []
  | r :: rest =>
    match floatList (rowElems r), rowsFloatList rest with
    | .ok xs, .ok m => .ok (xs :: m)
    | .error e, _ => .error e
    | _, .error e => .error e

/-- `hou.Matrix4(rows)` on a row list: requires exactly 4 rows, each a
list of 4 numbers, and yields the 4x4 numeric matrix. -/
def houMatrix4 (rows : List PyVal) : Except Unit (List (List ℚ)) :=
  if rows.length = 4 ∧ rows.all isRow4 then rowsFloatList rows
  else .error ()

/-- `import_helpers_to_houdini.matrix_list_to_hou_matrix4`: copies the rows,
scales `rows[3][0..2]` by `unit_scale` (through `float`, which raises on
non-numbers), and hands the rows to `hou.Matrix4`.  Any input on which the
Python code raises (too few rows, short third row, non-numeric translation
entries, non-4x4 shape) is an `Except.error`. -/
def matrix_list_to_hou_matrix4 (m_list : PyVal) (unit_scale : ℚ) :
    Except Unit (List (List ℚ)) :=
  match m_list with
  | .list rows =>
    match rows.get? 3 with
    | some (.list (a :: b :: c :: rest)) =>
      match pyFloat a, pyFloat b, pyFloat c with
      | .ok x, .ok y, .ok z =>
        houMatrix4 (rows.set 3
          (.list (.float (x * unit_scale) :: .float (y * unit_scale) ::
            .float (z * unit_scale) :: rest)))
      | _, _, _ => .error ()
    | _ => .error ()
  | _ => .error ()

/-- The `worldMatrix_translation` value set at
`houdiniImporMedaDane.py` line 99: `(wm16[12]*0.01, wm16[13]*0.01, wm16[14]*0.01)`. -/
def worldMatrix_translation (wm16 : List ℚ) : List ℚ :=
  [wm16.getD 12 0 * UNIT_SCALE, wm16.getD 13 0 * UNIT_SCALE, wm16.getD 14 0 * UNIT_SCALE]

/-- The `LEGO_startPosition_translation` value set at
`houdiniImporMedaDane.py` line 114: `(sm16[12]*0.01, sm16[13]*0.01, sm16[14]*0.01)`. -/
def LEGO_startPosition_translation (sm16 : List ℚ) : List ℚ :=
  [sm16.getD 12 0 * UNIT_SCALE, sm16.getD 13 0 * UNIT_SCALE, sm16.getD 14 0 * UNIT_SCALE]

/-! ## Path encoding and normalization

`houdiniImporMedaDane._norm` works on strings; we model strings as their
character lists.  (The exporters also define a `_norm` that is
`os.path.normpath` on filesystem paths; only the Houdini importer's `_norm`
is involved in the claims and is modelled here.) -/

/-- One character of `p.replace("|", "/")`. -/
def barToSlash (c : Char) : Char := if c = '|' then '/' else c

/-- `p.replace("|", "/")`. -/
def replaceBars (p : List Char) : List Char := p.map barToSlash

/-- `p.replace("//", "/")`: Python scans left to right, replacing
non-overlapping occurrences. -/
def replaceDS : List Char → List Char
  | [] => []
  | [c] => [c]
  | c1 :: c2 :: rest =>
    if c1 = '/' ∧ c2 = '/' then '/' :: replaceDS rest
    else c1 :: replaceDS (c2 :: rest)

/-- `"//" in p`. -/
def containsDS : List Char → Bool
  | [] => false
  | [_] => false
  | c1 :: c2 :: rest =>
    if c1 = '/' ∧ c2 = '/' then true else containsDS (c2 :: rest)

theorem replaceDS_length_le (s : List Char) : (replaceDS s).length ≤ s.length := by
  induction s using replaceDS.induct with
  | case1 => simp [replaceDS]
  | case2 c => simp [replaceDS]
  | case3 c1 c2 rest heq ih =>
    simp only [replaceDS, if_pos heq, List.length_cons]
    omega
  | case4 c1 c2 rest hne ih =>
    simp only [replaceDS, if_neg hne, List.length_cons]
    simpa using ih

theorem replaceDS_length_lt (s : List Char) (h : containsDS s = true) :
    (replaceDS s).length < s.length := by
  induction s using replaceDS.induct with
  | case1 => simp [containsDS] at h
  | case2 c => simp [containsDS] at h
  | case3 c1 c2 rest heq ih =>
    have := replaceDS_length_le rest
    simp only [replaceDS, if_pos heq, List.length_cons]
    omega
  | case4 c1 c2 rest hne ih =>
    rw [containsDS, if_neg hne] at h
    simp only [replaceDS, if_neg hne, List.length_cons]
    exact Nat.succ_lt_succ (ih h)

/-- The `while "//" in p: p = p.replace("//", "/")` loop of `_norm`. -/
def collapseLoop (s : List Char) : List Char :=
  if h : containsDS s = true then collapseLoop (replaceDS s) else s
termination_by s.length
decreasing_by exact replaceDS_length_lt s h

/-- Reference function: collapse every maximal run of `'/'` to a single
`'/'`; the boolean records whether the previous kept character was `'/'`. -/
def squashAux : Bool → List Char → List Char
  | _, [] => []
  | prevSlash, c :: rest =>
    if c = '/' then
      if prevSlash then squashAux true rest else '/' :: squashAux true rest
    else c :: squashAux false rest

/-- `p.rstrip("/")`: remove all trailing `'/'` characters. -/
def rstripSlash : List Char → List Char
  | [] => []
  | c :: rest =>
    match rstripSlash rest with
    | [] => if c = '/' then [] else [c]
    | r => c :: r

/-- `houdiniImporMedaDane._norm` on a string (falsy = empty string):
replace `'|'` by `'/'`, collapse `"//"` runs, strip trailing `'/'`. -/
def pyNorm (p : List Char) : List Char :=
  if p = [] then [] else rstripSlash (collapseLoop (replaceBars p))

/-- `houdiniImporMedaDane._norm` on an arbitrary value: falsy values
(including `None` and the empty string) yield `""`; non-falsy non-strings
raise (`.replace` is not defined on them). -/
def pyNormVal (v : PyVal) : Except Unit (List Char) :=
  if truthy v = false then .ok [] else
    match v with
    | .str s => .ok (pyNorm s.data)
    | _ => .error ()

/-- Python `dag.split("|")`. -/
def splitBar : List Char → List (List Char)
  | [] => [[]]
  | c :: rest =>
    if c = '|' then [] :: splitBar rest
    else
      match splitBar rest with
      | s :: ss => (c :: s) :: ss
      | [] => [[c]]

/-- Python `sep.join(parts)`. -/
def joinSep (sep : Char) : List (List Char) → List Char
  | [] => []
  | [s] => s
  | s :: rest => s ++ sep :: joinSep sep rest

/-- `_dag_to_unix_path` (`maya_meta_export.py` line 11,
`maya_export_helpers.py` line 37):
`"/" + "/".join(p for p in dag.split("|") if p) + "/"`. -/
def dag_to_unix_path (dag : List Char) : List Char :=
  '/' :: joinSep '/' ((splitBar dag).filter (· ≠ [])) ++ ['/']

/-! ## Lemmas: the collapse loop computes the squash of slash runs -/

theorem squashAux_replaceDS (s : List Char) :
    ∀ b, squashAux b (replaceDS s) = squashAux b s := by
  induction s using replaceDS.induct with
  | case1 => intro b; rfl
  | case2 c => intro b; rfl
  | case3 c1 c2 rest heq ih =>
    intro b
    obtain ⟨rfl, rfl⟩ := heq
    rw [replaceDS, if_pos ⟨rfl, rfl⟩]
    cases b <;> simp [squashAux, ih]
  | case4 c1 c2 rest hne ih =>
    intro b
    rw [replaceDS, if_neg hne]
    by_cases h1 : c1 = '/' <;> cases b <;> simp [squashAux, h1, ih]

theorem containsDS_cons (c : Char) (X : List Char)
    (h1 : c ≠ '/' ∨ X.head? ≠ some '/') (h2 : containsDS X = false) :
    containsDS (c :: X) = false := by
  cases X with
  | nil => rfl
  | cons d r =>
    rw [containsDS, if_neg]
    · exact h2
    · rintro ⟨rfl, rfl⟩
      rcases h1 with h | h
      · exact h rfl
      · exact h rfl

theorem squashAux_spec (s : List Char) :
    (∀ b, containsDS (squashAux b s) = false) ∧
    (squashAux true s).head? ≠ some '/' := by
  induction s with
  | nil => exact ⟨fun b => rfl, by simp [squashAux]⟩
  | cons c rest ih =>
    by_cases hc : c = '/'
    · subst hc
      have h1 : squashAux true ('/' :: rest) = squashAux true rest := by
        simp [squashAux]
      have h0 : squashAux false ('/' :: rest) = '/' :: squashAux true rest := by
        simp [squashAux]
      refine ⟨fun b => ?_, ?_⟩
      · cases b
        · rw [h0]
          exact containsDS_cons _ _ (Or.inr ih.2) (ih.1 true)
        · rw [h1]; exact ih.1 true
      · rw [h1]; exact ih.2
    · have hb : ∀ b, squashAux b (c :: rest) = c :: squashAux false rest := by
        intro b; simp [squashAux, hc]
      refine ⟨fun b => ?_, ?_⟩
      · rw [hb b]
        exact containsDS_cons _ _ (Or.inl hc) (ih.1 false)
      · rw [hb true]
        simpa using hc

theorem squashAux_of_not_containsDS (s : List Char) (h : containsDS s = false) :
    squashAux false s = s ∧ (s.head? ≠ some '/' → squashAux true s = s) := by
  induction s with
  | nil => exact ⟨rfl, fun _ => rfl⟩
  | cons c rest ih =>
    have hsplit : containsDS rest = false ∧ ¬(c = '/' ∧ rest.head? = some '/') := by
      cases rest with
      | nil => exact ⟨rfl, by simp⟩
      | cons d r =>
        rw [containsDS] at h
        by_cases hcd : c = '/' ∧ d = '/'
        · rw [if_pos hcd] at h; cases h
        · rw [if_neg hcd] at h
          exact ⟨h, by simpa using hcd⟩
    obtain ⟨hrest, hne⟩ := hsplit
    have ihr := ih hrest
    by_cases hc : c = '/'
    · subst hc
      have hhead : rest.head? ≠ some '/' := fun hh => hne ⟨rfl, hh⟩
      constructor
      · simp [squashAux, ihr.2 hhead]
      · intro hctr
        simp at hctr
    · constructor
      · simp [squashAux, hc, ihr.1]
      · intro _
        simp [squashAux, hc, ihr.1]

theorem collapseLoop_eq_squash (s : List Char) :
    collapseLoop s = squashAux false s := by
  rw [collapseLoop]
  by_cases h : containsDS s = true
  · rw [dif_pos h, collapseLoop_eq_squash (replaceDS s), squashAux_replaceDS]
  · rw [dif_neg h]
    exact ((squashAux_of_not_containsDS s (by simpa using h)).1).symm
termination_by s.length
decreasing_by exact replaceDS_length_lt s h

/-! ## Lemmas: rstrip and membership preservation -/

theorem rstripSlash_pre (s : List Char) : ∃ t, s = rstripSlash s ++ t := by
  induction s with
  | nil => exact ⟨[], rfl⟩
  | cons c rest ih =>
    rw [rstripSlash]
    cases hr : rstripSlash rest with
    | nil =>
      by_cases hc : c = '/'
      · exact ⟨c :: rest, by simp [hc]⟩
      · obtain ⟨t, ht⟩ := ih
        rw [hr] at ht
        exact ⟨t, by simp [hc, ht]⟩
    | cons a l =>
      obtain ⟨t, ht⟩ := ih
      rw [hr] at ht
      exact ⟨t, by simpa using ht⟩

theorem rstripSlash_getLast (s : List Char) :
    (rstripSlash s).getLast? ≠ some '/' := by
  induction s with
  | nil => simp [rstripSlash]
  | cons c rest ih =>
    rw [rstripSlash]
    cases hr : rstripSlash rest with
    | nil =>
      by_cases hc : c = '/'
      · simp [hc]
      · simpa [hc] using hc
    | cons a l =>
      rw [hr] at ih
      simpa [List.getLast?_cons_cons] using ih

theorem rstripSlash_of_getLast (s : List Char) (h : s.getLast? ≠ some '/') :
    rstripSlash s = s := by
  induction s with
  | nil => rfl
  | cons c rest ih =>
    cases rest with
    | nil =>
      have hc : c ≠ '/' := by simpa using h
      simp [rstripSlash, hc]
    | cons d r =>
      have h' : (d :: r).getLast? ≠ some '/' := by
        rwa [List.getLast?_cons_cons] at h
      rw [rstripSlash, ih h']

theorem rstrip_congr (c : Char) (A B : List Char)
    (h : rstripSlash A = rstripSlash B) :
    rstripSlash (c :: A) = rstripSlash (c :: B) := by
  rw [rstripSlash, rstripSlash, h]

theorem containsDS_cons_of (y : Char) (X : List Char) (h : containsDS X = true) :
    containsDS (y :: X) = true := by
  cases X with
  | nil => cases h
  | cons z r =>
    rw [containsDS]
    by_cases hyz : y = '/' ∧ z = '/'
    · rw [if_pos hyz]
    · rw [if_neg hyz]; exact h

theorem containsDS_append_ds (a b : List Char) :
    containsDS (a ++ '/' :: '/' :: b) = true := by
  induction a with
  | nil => rw [List.nil_append, containsDS, if_pos ⟨rfl, rfl⟩]
  | cons x a' ih => exact containsDS_cons_of x _ ih

theorem containsDS_append_of (a t : List Char) (h : containsDS a = true) :
    containsDS (a ++ t) = true := by
  induction a using containsDS.induct with
  | case1 => cases h
  | case2 c => cases h
  | case3 c1 c2 rest heq =>
    rw [List.cons_append, List.cons_append, containsDS, if_pos heq]
  | case4 c1 c2 rest hcd ih =>
    rw [containsDS, if_neg hcd] at h
    rw [List.cons_append, List.cons_append, containsDS, if_neg hcd]
    exact ih h

theorem containsDS_append_left (a t : List Char) (h : containsDS (a ++ t) = false) :
    containsDS a = false := by
  cases hca : containsDS a
  · rfl
  · rw [containsDS_append_of a t hca] at h
    cases h

theorem mem_squashAux (s : List Char) (b : Bool) (c : Char)
    (h : c ∈ squashAux b s) : c ∈ s ∨ c = '/' := by
  induction s generalizing b with
  | nil => simp [squashAux] at h
  | cons d rest ih =>
    by_cases hd : d = '/'
    · subst hd
      rw [squashAux, if_pos rfl] at h
      cases b with
      | true =>
        rcases ih true h with h' | h'
        · exact Or.inl (List.mem_cons_of_mem _ h')
        · exact Or.inr h'
      | false =>
        rcases List.mem_cons.mp h with rfl | h'
        · exact Or.inr rfl
        · rcases ih true h' with h'' | h''
          · exact Or.inl (List.mem_cons_of_mem _ h'')
          · exact Or.inr h''
    · rw [squashAux, if_neg hd] at h
      rcases List.mem_cons.mp h with rfl | h'
      · exact Or.inl (List.mem_cons_self _ _)
      · rcases ih false h' with h'' | h''
        · exact Or.inl (List.mem_cons_of_mem _ h'')
        · exact Or.inr h''

theorem no_bar_replaceBars (p : List Char) : '|' ∉ replaceBars p := by
  intro h
  rcases List.mem_map.mp h with ⟨c, _, hc⟩
  by_cases h' : c = '|' <;> simp [barToSlash, h'] at hc

theorem replaceBars_of_no_bar (s : List Char) (h : '|' ∉ s) :
    replaceBars s = s := by
  rw [replaceBars]
  apply List.map_congr_left ?_ |>.trans (List.map_id s)
  intro c hc
  have : c ≠ '|' := fun e => h (e ▸ hc)
  simp [barToSlash, this]

/-! ## Lemmas assembling `pyNorm` facts -/

theorem pyNorm_no_bar (p : List Char) : '|' ∉ pyNorm p := by
  rw [pyNorm]
  by_cases hp : p = []
  · simp [hp]
  · rw [if_neg hp]
    intro hmem
    obtain ⟨t, ht⟩ := rstripSlash_pre (collapseLoop (replaceBars p))
    have h2 : '|' ∈ collapseLoop (replaceBars p) := by
      rw [ht]; exact List.mem_append_left _ hmem
    rw [collapseLoop_eq_squash] at h2
    rcases mem_squashAux _ _ _ h2 with h3 | h3
    · exact no_bar_replaceBars p h3
    · cases h3

theorem pyNorm_no_ds (p : List Char) : containsDS (pyNorm p) = false := by
  rw [pyNorm]
  by_cases hp : p = []
  · simp [hp, containsDS]
  · rw [if_neg hp]
    obtain ⟨t, ht⟩ := rstripSlash_pre (collapseLoop (replaceBars p))
    apply containsDS_append_left _ t
    rw [← ht, collapseLoop_eq_squash]
    exact (squashAux_spec (replaceBars p)).1 false

theorem pyNorm_getLast (p : List Char) : (pyNorm p).getLast? ≠ some '/' := by
  rw [pyNorm]
  by_cases hp : p = []
  · simp [hp]
  · rw [if_neg hp]
    exact rstripSlash_getLast _

theorem collapseLoop_of_no_ds (s : List Char) (h : containsDS s = false) :
    collapseLoop s = s := by
  rw [collapseLoop, dif_neg (by simp [h])]

theorem pyNorm_idem (p : List Char) : pyNorm (pyNorm p) = pyNorm p := by
  by_cases h0 : pyNorm p = []
  · rw [h0]; rfl
  · rw [pyNorm, if_neg h0,
      replaceBars_of_no_bar _ (pyNorm_no_bar p),
      collapseLoop_of_no_ds _ (pyNorm_no_ds p),
      rstripSlash_of_getLast _ (pyNorm_getLast p)]

/-! ## Lemmas: split / join / trailing slash -/

theorem joinSep_cons_cons (sep : Char) (s s2 : List Char) (r : List (List Char)) :
    joinSep sep (s :: s2 :: r) = s ++ sep :: joinSep sep (s2 :: r) := rfl

theorem splitBar_no_bar (s : List Char) (h : '|' ∉ s) : splitBar s = [s] := by
  induction s with
  | nil => rfl
  | cons c rest ih =>
    have hc : c ≠ '|' := fun e => h (e ▸ List.mem_cons_self c rest)
    have hrest : '|' ∉ rest := fun e => h (List.mem_cons_of_mem c e)
    rw [splitBar, if_neg hc, ih hrest]

theorem splitBar_append_bar (s t : List Char) (h : '|' ∉ s) :
    splitBar (s ++ '|' :: t) = s :: splitBar t := by
  induction s with
  | nil => rw [List.nil_append, splitBar, if_pos rfl]
  | cons c s' ih =>
    have hc : c ≠ '|' := fun e => h (e ▸ List.mem_cons_self c s')
    have hs' : '|' ∉ s' := fun e => h (List.mem_cons_of_mem c e)
    rw [List.cons_append, splitBar, if_neg hc, ih hs']

theorem splitBar_joinSep (segs : List (List Char)) (hne : segs ≠ [])
    (hseg : ∀ s ∈ segs, '|' ∉ s) :
    splitBar (joinSep '|' segs) = segs := by
  induction segs with
  | nil => exact absurd rfl hne
  | cons s rest ih =>
    cases rest with
    | nil => exact splitBar_no_bar s (hseg s (List.mem_cons_self _ _))
    | cons s2 r =>
      rw [joinSep_cons_cons, splitBar_append_bar s _ (hseg s (List.mem_cons_self _ _)),
        ih (List.cons_ne_nil _ _) (fun x hx => hseg x (List.mem_cons_of_mem _ hx))]

theorem replaceBars_joinSep (segs : List (List Char))
    (hseg : ∀ s ∈ segs, '|' ∉ s) :
    replaceBars (joinSep '|' segs) = joinSep '/' segs := by
  induction segs with
  | nil => rfl
  | cons s rest ih =>
    cases rest with
    | nil => exact replaceBars_of_no_bar s (hseg s (List.mem_cons_self _ _))
    | cons s2 r =>
      have ihr := ih (fun x hx => hseg x (List.mem_cons_of_mem _ hx))
      calc replaceBars (joinSep '|' (s :: s2 :: r))
          = replaceBars s ++ '/' :: replaceBars (joinSep '|' (s2 :: r)) := by
            rw [joinSep_cons_cons]
            simp [replaceBars, barToSlash]
        _ = s ++ '/' :: joinSep '/' (s2 :: r) := by
            rw [replaceBars_of_no_bar s (hseg s (List.mem_cons_self _ _)), ihr]
        _ = joinSep '/' (s :: s2 :: r) := (joinSep_cons_cons _ _ _ _).symm

theorem barToSlash_idem : ∀ c, barToSlash (barToSlash c) = barToSlash c := by
  intro c
  by_cases h : c = '|' <;> simp [barToSlash, h]

theorem replaceBars_idem (p : List Char) :
    replaceBars (replaceBars p) = replaceBars p := by
  rw [replaceBars, replaceBars, List.map_map]
  exact List.map_congr_left (fun c _ => barToSlash_idem c)

theorem rstrip_squash_slash (y : List Char) :
    ∀ b, rstripSlash (squashAux b (y ++ ['/'])) = rstripSlash (squashAux b y) := by
  induction y with
  | nil => intro b; cases b <;> rfl
  | cons c y' ih =>
    intro b
    by_cases hc : c = '/'
    · subst hc
      rw [List.cons_append, squashAux, squashAux, if_pos rfl, if_pos rfl]
      cases b
      · simp only [Bool.false_eq_true, if_false]
        exact rstrip_congr _ _ _ (ih true)
      · simp only [if_pos rfl]
        exact ih true
    · rw [List.cons_append, squashAux, squashAux, if_neg hc, if_neg hc]
      exact rstrip_congr _ _ _ (ih false)

theorem pyNorm_append_slash (x : List Char) :
    pyNorm (x ++ ['/']) = pyNorm x := by
  by_cases hx : x = []
  · subst hx
    rw [List.nil_append, pyNorm, if_neg (by decide)]
    rw [show replaceBars ['/'] = ['/'] from rfl, collapseLoop_eq_squash]
    rfl
  · rw [pyNorm, if_neg (by simp), pyNorm, if_neg hx,
      show replaceBars (x ++ ['/']) = replaceBars x ++ ['/'] by
        simp [replaceBars, barToSlash],
      collapseLoop_eq_squash, collapseLoop_eq_squash]
    exact rstrip_squash_slash (replaceBars x) false

/-! ## Claim theorems C3, C4 -/

/-- C4: `_norm` produces a normal form and is idempotent: for every string
`p`, `_norm p` contains no `'|'`, contains no `"//"` substring, does not
end with `'/'`, and `_norm (_norm p) = _norm p`; every falsy value
(including the empty string) normalizes to the empty string. -/
theorem C4_norm_idempotent_normal_form (p : List Char) :
    '|' ∉ pyNorm p ∧
    (∀ a b : List Char, pyNorm p ≠ a ++ '/' :: '/' :: b) ∧
    (pyNorm p).getLast? ≠ some '/' ∧
    pyNorm (pyNorm p) = pyNorm p ∧
    (∀ v : PyVal, truthy v = false → pyNormVal v = .ok []) ∧
    pyNorm [] = [] := by
  refine ⟨pyNorm_no_bar p, fun a b hab => ?_, pyNorm_getLast p, pyNorm_idem p,
    fun v hv => ?_, rfl⟩
  · have h1 := pyNorm_no_ds p
    rw [hab, containsDS_append_ds] at h1
    cases h1
  · simp [pyNormVal, hv]

/-- C4 witness at a concrete string with bars, double slashes and a
trailing slash, and at the falsy value `None`. -/
theorem C4_norm_idempotent_normal_form_witness :
    pyNorm ("|a||b|".data) ≠ "x".data ++ '/' :: '/' :: "y".data ∧
    pyNormVal .pynone = .ok [] :=
  ⟨(C4_norm_idempotent_normal_form ("|a||b|".data)).2.1 _ _,
   (C4_norm_idempotent_normal_form []).2.2.2.2.1 .pynone rfl⟩

/-- C3: for a Maya DAG long path `d = "|" + seg₁ + "|" + ... + "|" + segₙ`
with nonempty bar-free segments, the importer's normalization maps all
three repository path encodings to the same key:
`_norm (_dag_to_unix_path d) = _norm (d.replace("|", "/")) = _norm d`. -/
theorem C3_path_encodings_agree (segs : List (List Char))
    (hne : segs ≠ []) (hseg : ∀ s ∈ segs, s ≠ [] ∧ '|' ∉ s) :
    pyNorm (dag_to_unix_path ('|' :: joinSep '|' segs)) =
      pyNorm (replaceBars ('|' :: joinSep '|' segs)) ∧
    pyNorm (replaceBars ('|' :: joinSep '|' segs)) =
      pyNorm ('|' :: joinSep '|' segs) := by
  have hbar : ∀ s ∈ segs, '|' ∉ s := fun s hs => (hseg s hs).2
  have hnil : ∀ s ∈ segs, s ≠ [] := fun s hs => (hseg s hs).1
  have hsplit : splitBar ('|' :: joinSep '|' segs) = [] :: segs := by
    rw [splitBar, if_pos rfl, splitBar_joinSep segs hne hbar]
  have hfilter : (([] : List Char) :: segs).filter (· ≠ []) = segs := by
    rw [List.filter_cons, if_neg (by decide)]
    exact List.filter_eq_self.mpr (fun a ha => by simpa using hnil a ha)
  have hrepl : replaceBars ('|' :: joinSep '|' segs) =
      '/' :: joinSep '/' segs := by
    rw [replaceBars, List.map_cons,
      show barToSlash '|' = '/' from rfl,
      show (joinSep '|' segs).map barToSlash = replaceBars (joinSep '|' segs) from rfl,
      replaceBars_joinSep segs hbar]
  have hdag : dag_to_unix_path ('|' :: joinSep '|' segs) =
      ('/' :: joinSep '/' segs) ++ ['/'] := by
    rw [dag_to_unix_path, hsplit, hfilter, List.cons_append]
  constructor
  · rw [hdag, hrepl, pyNorm_append_slash]
  · by_cases hd : ('|' :: joinSep '|' segs : List Char) = []
    · cases hd
    · rw [pyNorm, if_neg (by simp [hrepl]), pyNorm, if_neg (by simp),
        replaceBars_idem]

/-- C3 witness at the concrete DAG path `|a|b`. -/
theorem C3_path_encodings_agree_witness :
    pyNorm (dag_to_unix_path ('|' :: joinSep '|' ["a".data, "b".data])) =
      pyNorm (replaceBars ('|' :: joinSep '|' ["a".data, "b".data])) ∧
    pyNorm (replaceBars ('|' :: joinSep '|' ["a".data, "b".data])) =
      pyNorm ('|' :: joinSep '|' ["a".data, "b".data]) :=
  C3_path_encodings_agree ["a".data, "b".data] (by simp) (by decide)

/-! ## The record map of `houdiniImporMedaDane.py` (lines 50-55) -/

/-- A metadata record from the `"meshes"` JSON array.  The three path
fields are the values the map-building loop looks up (a missing field or a
JSON `null` behaves like `""`, since `_norm` sends every falsy value to
`""`); `payload` stands for the rest of the record's content and makes
records distinguishable. -/
structure MetaRec where
  path : List Char
  transformPathUnix : List Char
  shapePathUnix : List Char
  payload : Nat
deriving DecidableEq

/-- The nonempty normalized keys contributed by one record, in the loop's
key order `("path", "transformPathUnix", "shapePathUnix")`. -/
def recKeys (r : MetaRec) : List (List Char) :=
  ([r.path, r.transformPathUnix, r.shapePathUnix].map pyNorm).filter (· ≠ [])

/-- One inner iteration: `p = _norm(rec.get(k, "")); if p: rec_map[p] = rec`,
on the dictionary modelled as a function. -/
def insert1 (m : List Char → Option MetaRec) (r : MetaRec) (k : List Char) :
    List Char → Option MetaRec :=
  if pyNorm k ≠ [] then fun q => if q = pyNorm k then some r else m q else m

/-- One outer iteration: the three inner insertions in loop order. -/
def insertRec (m : List Char → Option MetaRec) (r : MetaRec) :
    List Char → Option MetaRec :=
  insert1 (insert1 (insert1 m r r.path) r r.transformPathUnix) r r.shapePathUnix

/-- The `rec_map` built by the loop over `records`. -/
def rec_map (records : List MetaRec) : List Char → Option MetaRec :=
  records.foldl insertRec (fun _ => none)

/-- The last record in list order among those whose nonempty normalized
path fields contain `p`. -/
def lastHit (records : List MetaRec) (p : List Char) : Option MetaRec :=
  (records.filter (fun r => decide (p ∈ recKeys r))).getLast?

theorem mem_recKeys (r : MetaRec) (q : List Char) :
    q ∈ recKeys r ↔
      (q = pyNorm r.path ∨ q = pyNorm r.transformPathUnix ∨
        q = pyNorm r.shapePathUnix) ∧ q ≠ [] := by
  simp only [recKeys, List.mem_filter, List.mem_map, List.mem_cons,
    List.not_mem_nil, or_false, ne_eq, decide_not]
  constructor
  · rintro ⟨⟨x, hx, rfl⟩, hq⟩
    refine ⟨?_, by simpa using hq⟩
    rcases hx with rfl | rfl | rfl
    · exact Or.inl rfl
    · exact Or.inr (Or.inl rfl)
    · exact Or.inr (Or.inr rfl)
  · rintro ⟨hor, hq⟩
    refine ⟨?_, by simpa using hq⟩
    rcases hor with rfl | rfl | rfl
    · exact ⟨r.path, Or.inl rfl, rfl⟩
    · exact ⟨r.transformPathUnix, Or.inr (Or.inl rfl), rfl⟩
    · exact ⟨r.shapePathUnix, Or.inr (Or.inr rfl), rfl⟩

theorem insert1_eq (m : List Char → Option MetaRec) (r : MetaRec)
    (k q : List Char) :
    insert1 m r k q = if q = pyNorm k ∧ q ≠ [] then some r else m q := by
  rw [insert1]
  by_cases h : pyNorm k = []
  · rw [if_neg (by simpa using h), if_neg (fun hc => hc.2 (hc.1.trans h))]
  · rw [if_pos (by simpa using h)]
    show (if q = pyNorm k then some r else m q) = _
    by_cases hq : q = pyNorm k
    · rw [if_pos hq, if_pos ⟨hq, fun he => h (hq ▸ he)⟩]
    · rw [if_neg hq, if_neg (fun hc => hq hc.1)]

theorem insertRec_eq (m : List Char → Option MetaRec) (r : MetaRec)
    (q : List Char) :
    insertRec m r q = if q ∈ recKeys r then some r else m q := by
  rw [insertRec, insert1_eq, insert1_eq, insert1_eq]
  by_cases hq : q ∈ recKeys r
  · rw [if_pos hq]
    have hmem := (mem_recKeys r q).mp hq
    split_ifs with h1 h2 h3
    · rfl
    · rfl
    · rfl
    · exfalso
      rcases hmem with ⟨h | h | h, hne⟩
      · exact h3 ⟨h, hne⟩
      · exact h2 ⟨h, hne⟩
      · exact h1 ⟨h, hne⟩
  · rw [if_neg hq]
    have hno := fun hc => hq ((mem_recKeys r q).mpr hc)
    rw [if_neg (fun hc => hno ⟨Or.inr (Or.inr hc.1), hc.2⟩),
      if_neg (fun hc => hno ⟨Or.inr (Or.inl hc.1), hc.2⟩),
      if_neg (fun hc => hno ⟨Or.inl hc.1, hc.2⟩)]

theorem lastHit_cons (r : MetaRec) (rs : List MetaRec) (p : List Char) :
    lastHit (r :: rs) p =
      if p ∈ recKeys r then (lastHit rs p).or (some r) else lastHit rs p := by
  rw [lastHit, List.filter_cons]
  by_cases hr : p ∈ recKeys r
  · rw [if_pos (by simpa using hr), if_pos hr]
    cases hLast : (rs.filter (fun x => decide (p ∈ recKeys x))).getLast? with
    | some r' =>
      rw [show ((r :: rs.filter (fun x => decide (p ∈ recKeys x))).getLast?)
          = some r' from List.mem_getLast?_cons hLast, lastHit, hLast]
      rfl
    | none =>
      have hl : rs.filter (fun x => decide (p ∈ recKeys x)) = [] := by
        simpa [List.getLast?_eq_none_iff] using hLast
      rw [hl, lastHit, hl]
      rfl
  · rw [if_neg (by simpa using hr), if_neg hr, lastHit]

theorem foldl_insertRec (rs : List MetaRec) (m : List Char → Option MetaRec)
    (p : List Char) :
    rs.foldl insertRec m p = (lastHit rs p).or (m p) := by
  induction rs generalizing m with
  | nil => rfl
  | cons r rs ih =>
    rw [List.foldl_cons, ih, lastHit_cons]
    by_cases hr : p ∈ recKeys r
    · rw [if_pos hr, insertRec_eq, if_pos hr]
      cases h : lastHit rs p <;> rfl
    · rw [if_neg hr, insertRec_eq, if_neg hr]

/-- C6: the record-map building loop is last-writer-wins.  For every key
`p`, the built map holds the last record (in list order) among those whose
nonempty normalized `"path"` / `"transformPathUnix"` / `"shapePathUnix"`
value equals `p`; the map's domain is exactly the set of nonempty
normalized values of those three fields over all records. -/
theorem C6_rec_map_last_writer_wins (records : List MetaRec) (p : List Char) :
    rec_map records p =
      (records.filter (fun r => decide (p ∈ recKeys r))).getLast? ∧
    ((rec_map records p).isSome ↔ ∃ r ∈ records, p ∈ recKeys r) ∧
    (∀ r : MetaRec, p ∈ recKeys r ↔
      (p = pyNorm r.path ∨ p = pyNorm r.transformPathUnix ∨
        p = pyNorm r.shapePathUnix) ∧ p ≠ []) := by
  have h1 : rec_map records p = lastHit records p := by
    rw [rec_map, foldl_insertRec]
    cases lastHit records p <;> rfl
  refine ⟨h1, ?_, fun r => mem_recKeys r p⟩
  rw [h1, lastHit]
  cases hLast : (records.filter (fun r => decide (p ∈ recKeys r))).getLast? with
  | some r' =>
    simp only [Option.isSome_some, true_iff]
    have hmem : r' ∈ records.filter (fun r => decide (p ∈ recKeys r)) :=
      List.mem_of_mem_getLast? hLast
    rcases List.mem_filter.mp hmem with ⟨hr, hp⟩
    exact ⟨r', hr, by simpa using hp⟩
  | none =>
    have hl : records.filter (fun r => decide (p ∈ recKeys r)) = [] := by
      simpa [List.getLast?_eq_none_iff] using hLast
    simp only [Option.isSome_none, Bool.false_eq_true, false_iff]
    rintro ⟨r, hr, hp⟩
    have : r ∈ records.filter (fun x => decide (p ∈ recKeys x)) :=
      List.mem_filter.mpr ⟨hr, by simpa using hp⟩
    rw [hl] at this
    cases this

/-- C6 witness: two records sharing the key `/a/b`; the map holds the
second one. -/
theorem C6_rec_map_last_writer_wins_witness :
    rec_map [⟨"|a|b".data, [], [], 1⟩, ⟨[], "/a/b/".data, [], 2⟩] ("/a/b".data) =
      ([⟨"|a|b".data, [], [], 1⟩, (⟨[], "/a/b/".data, [], 2⟩ : MetaRec)].filter
        (fun r => decide (("/a/b".data) ∈ recKeys r))).getLast? :=
  (C6_rec_map_last_writer_wins
    [⟨"|a|b".data, [], [], 1⟩, ⟨[], "/a/b/".data, [], 2⟩] ("/a/b".data)).1

/-! ## `get_toplevel_roots` of `maya_export_alembic_helpers.py` -/

/-- `s.count('|')` (the sort key). -/
def countBar (s : List Char) : Nat := s.count '|'

/-- Python `n.startswith(p)` on character lists (`startsWithL n p`). -/
def startsWithL (s p : List Char) : Bool :=
  match p, s with
  | [], _ => true
  | _ :: _, [] => false
  | pc :: ps, c :: cs => c = pc && startsWithL cs ps

/-- Stable insertion by the `count('|')` key.  This models
`sorted(set(nodes), key=lambda x: x.count('|'))`: Python's sort is only
specified up to stability and `set` iteration order is arbitrary, and all
properties claimed of `get_toplevel_roots` hold for every key-sorted
order, so one concrete order is fixed here. -/
def insertByCount (x : List Char) : List (List Char) → List (List Char)
  | [] => [x]
  | y :: ys =>
    if countBar x ≤ countBar y then x :: y :: ys else y :: insertByCount x ys

/-- Insertion sort by the `count('|')` key. -/
def sortByCount : List (List Char) → List (List Char)
  | [] => []
  | x :: xs => insertByCount x (sortByCount xs)

/-- One iteration of the roots-selection loop:
`if not any(n != r and n.startswith(r + '|') for r in roots): roots.append(n)`. -/
def rootsStep (roots : List (List Char)) (n : List Char) : List (List Char) :=
  if roots.any (fun r => decide (n ≠ r) && startsWithL n (r ++ ['|'])) then roots
  else roots ++ [n]

/-- `maya_export_alembic_helpers.get_toplevel_roots`. -/
def get_toplevel_roots (nodes : List (List Char)) : List (List Char) :=
  if nodes.isEmpty then []
  else (sortByCount nodes.dedup).foldl rootsStep []

theorem startsWithL_iff (p : List Char) :
    ∀ s, startsWithL s p = true ↔ ∃ t, s = p ++ t := by
  induction p with
  | nil =>
    intro s
    simp only [startsWithL, List.nil_append, true_iff]
    exact ⟨s, rfl⟩
  | cons pc ps ih =>
    intro s
    cases s with
    | nil =>
      simp only [startsWithL, List.cons_append]
      constructor
      · intro h; cases h
      · rintro ⟨t, ht⟩; cases ht
    | cons c cs =>
      rw [show startsWithL (c :: cs) (pc :: ps) =
        (decide (c = pc) && startsWithL cs ps) from rfl]
      simp only [Bool.and_eq_true, decide_eq_true_eq, ih cs, List.cons_append,
        List.cons.injEq]
      constructor
      · rintro ⟨rfl, t, rfl⟩; exact ⟨t, rfl, rfl⟩
      · rintro ⟨t, rfl, rfl⟩; exact ⟨rfl, t, rfl⟩

theorem countBar_lt_of_desc (n r : List Char)
    (h : startsWithL n (r ++ ['|']) = true) : countBar r < countBar n := by
  obtain ⟨t, rfl⟩ := (startsWithL_iff _ n).mp h
  simp only [countBar, List.count_append, List.append_assoc]
  have : List.count '|' ['|'] = 1 := rfl
  omega

theorem mem_insertByCount (x : List Char) (l : List (List Char)) (a : List Char) :
    a ∈ insertByCount x l ↔ a = x ∨ a ∈ l := by
  induction l with
  | nil => simp [insertByCount]
  | cons y ys ih =>
    rw [insertByCount]
    by_cases h : countBar x ≤ countBar y
    · simp [if_pos h]
    · simp only [if_neg h, List.mem_cons, ih]
      tauto

theorem nodup_insertByCount (x : List Char) (l : List (List Char))
    (hx : x ∉ l) (h : l.Nodup) : (insertByCount x l).Nodup := by
  induction l with
  | nil => simp [insertByCount]
  | cons y ys ih =>
    rw [insertByCount]
    rcases List.nodup_cons.mp h with ⟨hy, hys⟩
    have hxy : x ≠ y := fun e => hx (e ▸ List.mem_cons_self _ _)
    have hxys : x ∉ ys := fun e => hx (List.mem_cons_of_mem _ e)
    by_cases hc : countBar x ≤ countBar y
    · rw [if_pos hc]
      exact List.nodup_cons.mpr ⟨by simp [hxy, hxys], h⟩
    · rw [if_neg hc]
      refine List.nodup_cons.mpr ⟨?_, ih hxys hys⟩
      rw [mem_insertByCount]
      rintro (rfl | hmem)
      · exact hxy rfl
      · exact hy hmem

theorem sorted_insertByCount (x : List Char) (l : List (List Char))
    (h : l.Pairwise (fun a b => countBar a ≤ countBar b)) :
    (insertByCount x l).Pairwise (fun a b => countBar a ≤ countBar b) := by
  induction l with
  | nil => simp [insertByCount]
  | cons y ys ih =>
    rcases List.pairwise_cons.mp h with ⟨hy, hys⟩
    rw [insertByCount]
    by_cases hc : countBar x ≤ countBar y
    · rw [if_pos hc]
      refine List.pairwise_cons.mpr ⟨?_, h⟩
      intro a ha
      rcases List.mem_cons.mp ha with rfl | ha'
      · exact hc
      · exact le_trans hc (hy a ha')
    · rw [if_neg hc]
      refine List.pairwise_cons.mpr ⟨?_, ih hys⟩
      intro a ha
      rcases (mem_insertByCount x ys a).mp ha with rfl | ha'
      · omega
      · exact hy a ha'

theorem mem_sortByCount (l : List (List Char)) (a : List Char) :
    a ∈ sortByCount l ↔ a ∈ l := by
  induction l with
  | nil => simp [sortByCount]
  | cons x xs ih => rw [sortByCount, mem_insertByCount, ih]; simp

theorem nodup_sortByCount (l : List (List Char)) (h : l.Nodup) :
    (sortByCount l).Nodup := by
  induction l with
  | nil => simp [sortByCount]
  | cons x xs ih =>
    rcases List.nodup_cons.mp h with ⟨hx, hxs⟩
    rw [sortByCount]
    exact nodup_insertByCount x _ (fun e => hx ((mem_sortByCount xs x).mp e)) (ih hxs)

theorem sorted_sortByCount (l : List (List Char)) :
    (sortByCount l).Pairwise (fun a b => countBar a ≤ countBar b) := by
  induction l with
  | nil => simp [sortByCount]
  | cons x xs ih => exact sorted_insertByCount x _ ih

theorem mem_rootsStep_of_mem (roots : List (List Char)) (n r : List Char)
    (h : r ∈ roots) : r ∈ rootsStep roots n := by
  rw [rootsStep]
  split
  · exact h
  · exact List.mem_append_left _ h

theorem mem_rootsStep (roots : List (List Char)) (n r : List Char)
    (h : r ∈ rootsStep roots n) : r ∈ roots ∨ r = n := by
  rw [rootsStep] at h
  split at h
  · exact Or.inl h
  · rcases List.mem_append.mp h with h' | h'
    · exact Or.inl h'
    · exact Or.inr (by simpa using h')

theorem foldl_rootsStep_inv (l : List (List Char)) :
    ∀ roots : List (List Char),
    l.Pairwise (fun a b => countBar a ≤ countBar b) →
    l.Nodup →
    (∀ r ∈ roots, ∀ n ∈ l, countBar r ≤ countBar n) →
    (∀ r ∈ roots, r ∉ l) →
    roots.Nodup →
    (∀ r1 ∈ roots, ∀ r2 ∈ roots, r1 ≠ r2 → startsWithL r1 (r2 ++ ['|']) = false) →
    (l.foldl rootsStep roots).Nodup ∧
    (∀ r ∈ l.foldl rootsStep roots, r ∈ roots ∨ r ∈ l) ∧
    (∀ r1 ∈ l.foldl rootsStep roots, ∀ r2 ∈ l.foldl rootsStep roots,
      r1 ≠ r2 → startsWithL r1 (r2 ++ ['|']) = false) ∧
    (∀ n ∈ l, n ∈ l.foldl rootsStep roots ∨
      ∃ r ∈ l.foldl rootsStep roots, r ≠ n ∧ startsWithL n (r ++ ['|']) = true) ∧
    (∀ r ∈ roots, r ∈ l.foldl rootsStep roots) := by
  induction l with
  | nil =>
    intro roots _ _ _ _ hnd hpair
    exact ⟨hnd, fun r hr => Or.inl hr, hpair, by simp, fun r hr => hr⟩
  | cons n l ih =>
    intro roots hsort hlnd hbound hdisj hnd hpair
    obtain ⟨hn_le, hsort'⟩ := List.pairwise_cons.mp hsort
    obtain ⟨hn_notin, hlnd'⟩ := List.nodup_cons.mp hlnd
    have hn_notroots : n ∉ roots := fun hmem =>
      hdisj n hmem (List.mem_cons_self _ _)
    have hbound' : ∀ r ∈ rootsStep roots n, ∀ m ∈ l, countBar r ≤ countBar m := by
      intro r hr m hm
      rcases mem_rootsStep roots n r hr with h' | rfl
      · exact hbound r h' m (List.mem_cons_of_mem _ hm)
      · exact hn_le m hm
    have hdisj' : ∀ r ∈ rootsStep roots n, r ∉ l := by
      intro r hr
      rcases mem_rootsStep roots n r hr with h' | rfl
      · exact fun hm => hdisj r h' (List.mem_cons_of_mem _ hm)
      · exact hn_notin
    have hnodup' : (rootsStep roots n).Nodup := by
      rw [rootsStep]
      split
      · exact hnd
      · simp [List.nodup_append, hnd, hn_notroots]
    have hpair' : ∀ r1 ∈ rootsStep roots n, ∀ r2 ∈ rootsStep roots n,
        r1 ≠ r2 → startsWithL r1 (r2 ++ ['|']) = false := by
      intro r1 hr1 r2 hr2 hne
      rw [rootsStep] at hr1 hr2
      cases hany : roots.any (fun r => decide (n ≠ r) && startsWithL n (r ++ ['|'])) with
      | true =>
        rw [if_pos hany] at hr1 hr2
        exact hpair r1 hr1 r2 hr2 hne
      | false =>
        rw [if_neg (by rw [hany]; exact Bool.false_ne_true)] at hr1 hr2
        have hnone : ∀ r ∈ roots, ¬(n ≠ r ∧ startsWithL n (r ++ ['|']) = true) := by
          intro r hr hc
          have hpr : (fun r => decide (n ≠ r) && startsWithL n (r ++ ['|'])) r
              = true := by
            show (decide (n ≠ r) && startsWithL n (r ++ ['|'])) = true
            rw [hc.2, Bool.and_true]
            exact decide_eq_true hc.1
          have ht : (roots.any fun r =>
              decide (n ≠ r) && startsWithL n (r ++ ['|'])) = true :=
            List.any_eq_true.mpr ⟨r, hr, hpr⟩
          rw [hany] at ht
          cases ht
        rcases List.mem_append.mp hr1 with h1 | h1 <;>
          rcases List.mem_append.mp hr2 with h2 | h2
        · exact hpair r1 h1 r2 h2 hne
        · have hr2n : r2 = n := by simpa using h2
          subst hr2n
          by_contra hc
          have ht : startsWithL r1 (r2 ++ ['|']) = true := by
            cases hcc : startsWithL r1 (r2 ++ ['|'])
            · exact absurd hcc hc
            · rfl
          have h1lt := countBar_lt_of_desc _ _ ht
          have h1le := hbound r1 h1 r2 (List.mem_cons_self _ _)
          omega
        · have hr1n : r1 = n := by simpa using h1
          subst hr1n
          cases hcc : startsWithL r1 (r2 ++ ['|'])
          · rfl
          · exact absurd ⟨hne, hcc⟩ (hnone r2 h2)
        · have e1 : r1 = n := by simpa using h1
          have e2 : r2 = n := by simpa using h2
          exact absurd (e1.trans e2.symm) hne
    obtain ⟨g1, g2, g3, g4, g5⟩ :=
      ih (rootsStep roots n) hsort' hlnd' hbound' hdisj' hnodup' hpair'
    rw [List.foldl_cons]
    refine ⟨g1, ?_, g3, ?_, ?_⟩
    · intro r hr
      rcases g2 r hr with h' | h'
      · rcases mem_rootsStep roots n r h' with h'' | rfl
        · exact Or.inl h''
        · exact Or.inr (List.mem_cons_self _ _)
      · exact Or.inr (List.mem_cons_of_mem _ h')
    · intro m hm
      rcases List.mem_cons.mp hm with rfl | hm'
      · cases hany : roots.any (fun r => decide (m ≠ r) && startsWithL m (r ++ ['|'])) with
        | true =>
          obtain ⟨r, hr, hpr⟩ := List.any_eq_true.mp hany
          rw [Bool.and_eq_true, decide_eq_true_eq] at hpr
          refine Or.inr ⟨r, ?_, fun e => hpr.1 e.symm, hpr.2⟩
          exact g5 r (mem_rootsStep_of_mem roots m r hr)
        | false =>
          refine Or.inl (g5 m ?_)
          rw [rootsStep, if_neg (by rw [hany]; exact Bool.false_ne_true)]
          exact List.mem_append_right _ (List.mem_cons_self _ _)
      · exact g4 m hm'
    · intro r hr
      exact g5 r (mem_rootsStep_of_mem roots n r hr)

/-- C8: `get_toplevel_roots` returns a duplicate-free subset of its input
in which no returned element is a strict descendant of another (where `m`
is a strict descendant of `r` when `m ≠ r` and `m` starts with `r + '|'`),
and every input element either is returned or is a strict descendant of
some returned element. -/
theorem C8_get_toplevel_roots (nodes : List (List Char)) :
    (get_toplevel_roots nodes).Nodup ∧
    (∀ r ∈ get_toplevel_roots nodes, r ∈ nodes) ∧
    (∀ r1 ∈ get_toplevel_roots nodes, ∀ r2 ∈ get_toplevel_roots nodes,
      r1 ≠ r2 → startsWithL r1 (r2 ++ ['|']) = false) ∧
    (∀ n ∈ nodes, n ∈ get_toplevel_roots nodes ∨
      ∃ r ∈ get_toplevel_roots nodes, r ≠ n ∧
        startsWithL n (r ++ ['|']) = true) := by
  by_cases hempty : nodes.isEmpty
  · have : nodes = [] := by simpa [List.isEmpty_iff] using hempty
    subst this
    refine ⟨?_, ?_, ?_, ?_⟩ <;> simp [get_toplevel_roots]
  · have hR : get_toplevel_roots nodes =
        (sortByCount nodes.dedup).foldl rootsStep [] := by
      rw [get_toplevel_roots, if_neg hempty]
    obtain ⟨g1, g2, g3, g4, _⟩ :=
      foldl_rootsStep_inv (sortByCount nodes.dedup) []
        (sorted_sortByCount _)
        (nodup_sortByCount _ nodes.nodup_dedup)
        (by simp) (by simp) (by simp) (by simp)
    rw [hR]
    refine ⟨g1, ?_, g3, ?_⟩
    · intro r hr
      rcases g2 r hr with h' | h'
      · cases h'
      · exact List.mem_dedup.mp ((mem_sortByCount _ r).mp h')
    · intro n hn
      exact g4 n ((mem_sortByCount _ n).mpr (List.mem_dedup.mpr hn))

/-- C8 witness: `|A|B` is a strict descendant of a returned root in
`get_toplevel_roots ["|A", "|A|B"]`. -/
theorem C8_get_toplevel_roots_witness :
    "|A|B".data ∈ get_toplevel_roots ["|A".data, "|A|B".data] ∨
    ∃ r ∈ get_toplevel_roots ["|A".data, "|A|B".data], r ≠ "|A|B".data ∧
      startsWithL ("|A|B".data) (r ++ ['|']) = true :=
  (C8_get_toplevel_roots ["|A".data, "|A|B".data]).2.2.2 ("|A|B".data) (by decide)

/-! ## `import_helpers` (`import_helpers_to_houdini.py`): error behavior -/

/-- `isinstance(v, dict)`. -/
def isDict : PyVal → Bool
  | .dict _ => true
  | _ => false

/-- Python `d.get(k, default)` on a dict (JSON objects have unique keys);
any non-dict value also yields the default (the callers below only reach
this after an `isDict` check or inside a `try/except`). -/
def dictGetD : PyVal → String → PyVal → PyVal
  | .dict l, k, d =>
    match l.find? (fun kv => kv.1 == k) with
    | some kv => kv.2
    | none => d
  | _, _, d => d

/-- The exception classes `import_helpers` can raise. -/
inductive PyErr where
  | fileNotFound
  | runtimeError
  | jsonDecodeError
  | valueError
deriving DecidableEq

/-- Node creation and file I/O events, in program order. -/
inductive Event where
  | createNode (parent name : String)
  | openFile (p : String)
deriving DecidableEq

/-- The ambient world: which paths name existing files, what JSON document
each file decodes to (`none` = decode error), whether `/obj` exists and
which child nodes it has. -/
structure Env where
  isfile : String → Bool
  decoded : String → Option PyVal
  objExists : Bool
  objChildren : List String

/-- `ensure_hierarchy_from_path`: split the DAG path on `'/'`, drop empty
parts, raise `ValueError` when nothing remains, else walk the parts
creating each missing node under the previous one.  The scene is the set
of node paths existing under the root; creations are recorded as events. -/
def ensure_hierarchy (scene : List String) (dag_path : String) :
    List String × List Event × Except PyErr String :=
  let parts := (dag_path.splitOn "/").filter (· ≠ "")
  if parts.isEmpty then (scene, [], .error .valueError)
  else
    let fin := parts.foldl
      (fun (st : List String × List Event × String) part =>
        let path := if st.2.2 = "" then part else st.2.2 ++ "/" ++ part
        if st.1.contains path then (st.1, st.2.1, path)
        else (path :: st.1, st.2.1 ++ [Event.createNode st.2.2 part], path))
      (scene, [], "")
    (fin.1, fin.2.1, .ok fin.2.2)

/-- One iteration of the `for entry in data` loop of `import_helpers`.
The body is wrapped in `try/except`, so a failing entry is skipped,
keeping whatever nodes were already created; the returned flag says
whether `created` was incremented. -/
def processEntry (scene : List String) (entry : PyVal) (us : ℚ) :
    List String × List Event × Bool :=
  if isDict entry = false then (scene, [], false)
  else
    let dag := dictGetD entry "path" .pynone
    let m := dictGetD entry "matrix" .pynone
    if truthy dag = false ∨ truthy m = false then (scene, [], false)
    else
      match dag with
      | .str s =>
        match ensure_hierarchy scene s with
        | (sc, evs, .ok _) =>
          match matrix_list_to_hou_matrix4 m us with
          | .ok _ => (sc, evs, true)
          | .error _ => (sc, evs, false)
        | (sc, evs, .error _) => (sc, evs, false)
      | _ => (scene, [], false)

/-- The entry loop: thread the scene, concatenate events, count created. -/
def processEntries (entries : List PyVal) (us : ℚ) :
    List String × List Event × Nat :=
  entries.foldl
    (fun (st : List String × List Event × Nat) e =>
      let r := processEntry st.1 e us
      (r.1, st.2.1 ++ r.2.1, if r.2.2 then st.2.2 + 1 else st.2.2))
    ([], [], 0)

/-- `import_helpers_to_houdini.import_helpers`: in program order, check
`os.path.isfile(json_path)` (raise `FileNotFoundError`), find `/obj`
(raise `RuntimeError`), find or create the root node, open and JSON-decode
the file, require a list root (raise `ValueError`), then process the
entries.  Returns the node-creation/file events and the raised exception
or the `created` count. -/
def import_helpers (env : Env) (json_path root_path : String) (us : ℚ) :
    List Event × Except PyErr Nat :=
  if env.isfile json_path = false then ([], .error .fileNotFound)
  else if env.objExists = false then ([], .error .runtimeError)
  else
    let lastSeg := (root_path.splitOn "/").getLastD ""
    let rootHit : Option String :=
      if root_path.startsWith "/obj/" then
        (if env.objChildren.contains lastSeg then some lastSeg else none)
      else none
    let ev0 : List Event :=
      match rootHit with
      | some _ => []
      | none =>
        [Event.createNode "/obj"
          (if root_path.startsWith "/obj/" then lastSeg else "helpers_import")]
    let ev1 := ev0 ++ [Event.openFile json_path]
    match env.decoded json_path with
    | none => (ev1, .error .jsonDecodeError)
    | some (.list entries) =>
      let r := processEntries entries us
      (ev1 ++ r.2.1, .ok r.2.2)
    | some _ => (ev1, .error .valueError)

/-! ## The helper-point importer (`houiniImportHelper.py`) -/

/-- The default `transform` point attribute (`houiniImportHelper.py`
line 30). -/
def identity_matrix : List ℚ :=
  [1.0, 0.0, 0.0, 0.0, 0.0, 1.0, 0.0, 0.0, 0.0, 0.0, 1.0, 0.0, 0.0, 0.0, 0.0, 1.0]

/-- A created point with its attributes and position. -/
structure HPoint where
  path : String
  type : String
  hasMesh : Nat
  transform : List ℚ
  pos : List ℚ
deriving DecidableEq

/-- Python iteration for the comprehension
`[item for sublist in m for item in sublist]`: lists iterate over their
elements, strings over one-character strings, dicts over their keys;
numbers and `None` raise `TypeError`. -/
def pyIter : PyVal → Except Unit (List PyVal)
  | .list l => .ok l
  | .str s => .ok (s.data.map (fun c => .str (String.mk [c])))
  | .dict l => .ok (l.map (fun kv => .str kv.1))
  | _ => .error ()

/-- Sequential flattening of the sublists, first failure aborting. -/
def flattenSubs : List PyVal → Except Unit (List PyVal)
  | [] => .ok []
  | s :: rest =>
    match pyIter s, flattenSubs rest with
    | .ok items, .ok acc => .ok (items ++ acc)
    | .error e, _ => .error e
    | _, .error e => .error e

/-- The whole comprehension `[item for sublist in m for item in sublist]`. -/
def flattenPy (m : PyVal) : Except Unit (List PyVal) :=
  match pyIter m with
  | .ok subs => flattenSubs subs
  | .error e => .error e

/-- `hou.Matrix4` on the flat argument list: 16 numbers required. -/
def houMatrix4Flat (l : List PyVal) : Except Unit (List ℚ) :=
  if l.length = 16 then floatList l else .error ()

/-- The parsed transform of one entry: `None`-like when `"transform"` is
missing or falsy, or when the flattening or the `hou.Matrix4` call raises
(the `except` branch that prints a warning). -/
def parsedTransform (e : PyVal) : Option (List ℚ) :=
  let m := dictGetD e "transform" .pynone
  if truthy m then
    match flattenPy m with
    | .ok flat =>
      match houMatrix4Flat flat with
      | .ok t => some t
      | .error _ => none
    | .error _ => none
  else none

/-- One iteration of the helper-point loop (`houiniImportHelper.py` lines
35-51): create a point, set `path`, `type`, `hasMesh` from the entry
(defaults `""`, `""`, `0`); when the `"transform"` value is truthy, try
flattening and `hou.Matrix4`, setting position (the matrix translation,
entries 12-14) and the `transform` attribute on success and keeping the
defaults on failure.  A non-dict entry or a non-string `path`/`type`
value makes the iteration raise out of the loop. -/
def createPointFor (helper : PyVal) : Except Unit HPoint :=
  if isDict helper = false then .error ()
  else
    match dictGetD helper "path" (.str ""), dictGetD helper "type" (.str "") with
    | .str ps, .str ts =>
      let hm := if truthy (dictGetD helper "hasMesh" (.bool false)) then 1 else 0
      match parsedTransform helper with
      | some t => .ok ⟨ps, ts, hm, t, [t.getD 12 0, t.getD 13 0, t.getD 14 0]⟩
      | none => .ok ⟨ps, ts, hm, identity_matrix, [0, 0, 0]⟩
    | _, _ => .error ()

/-- The helper-point creation loop over the decoded list, in list order.
The model aborts on a malformed entry (the partial point a raising Python
iteration leaves behind is not modelled; no theorem evaluates that case). -/
def importHelperPoints : List PyVal → Except Unit (List HPoint)
  | [] => .ok []
  | h :: rest =>
    match createPointFor h, importHelperPoints rest with
    | .ok p, .ok ps => .ok (p :: ps)
    | .error e, _ => .error e
    | _, .error e => .error e

/-- String content with default `""` (the shape `setAttribValue` accepts). -/
def strD : PyVal → String
  | .str s => s
  | _ => ""

/-- `isinstance(v, str)`. -/
def isStr : PyVal → Bool
  | .str _ => true
  | _ => false

/-- A well-formed entry: a dict whose `path` and `type` values, when
present, are strings (otherwise `setAttribValue` raises). -/
def wfEntry (helper : PyVal) : Bool :=
  isDict helper && isStr (dictGetD helper "path" (.str "")) &&
    isStr (dictGetD helper "type" (.str ""))

/-- The point one well-formed entry produces. -/
def mkPoint (helper : PyVal) : HPoint :=
  let ps := strD (dictGetD helper "path" (.str ""))
  let ts := strD (dictGetD helper "type" (.str ""))
  let hm := if truthy (dictGetD helper "hasMesh" (.bool false)) then 1 else 0
  match parsedTransform helper with
  | some t => ⟨ps, ts, hm, t, [t.getD 12 0, t.getD 13 0, t.getD 14 0]⟩
  | none => ⟨ps, ts, hm, identity_matrix, [0, 0, 0]⟩

/-! ## Heap model for the frame claim about `matrix_list_to_hou_matrix4` -/

/-- Heap model: row objects live in a store (a list of rows addressed by
position); a Python matrix object is a list of row addresses.
`matrix_list_to_hou_matrix4` first copies every row
(`rows = [list(row) for row in m_list]`, fresh cells appended to the
store), then mutates entries 0-2 of the *copy* of row 3 in place; the
failing cases (no row 3, short row 3) raise after the copies are
allocated.  Returns the new store and the fresh matrix object (or `none`
when the call raises). -/
def matrix_heap_call (store : List (List ℚ)) (mrefs : List Nat) (s : ℚ) :
    List (List ℚ) × Option (List Nat) :=
  let base := store.length
  let copies := mrefs.map (fun a => store.getD a [])
  let store1 := store ++ copies
  match copies.get? 3 with
  | some (a :: b :: c :: rest) =>
    (store1.set (base + 3) (a * s :: b * s :: c * s :: rest),
     some (List.range' base mrefs.length))
  | _ => (store1, none)

/-! ## Helper lemmas for the matrix claims -/

theorem flatten_chunk (m : List ℚ) (h : m.length = 16) :
    flat_matrix_list (world_matrix_chunk m) = m := by
  have e12 : (m.drop 12).take 4 = m.drop 12 := by
    apply List.take_of_length_le; simp [h]
  have e8 : (m.drop 8).take 4 ++ m.drop 12 = m.drop 8 := by
    have h' := List.take_append_drop 4 (m.drop 8)
    rwa [List.drop_drop] at h'
  have e4 : (m.drop 4).take 4 ++ m.drop 8 = m.drop 4 := by
    have h' := List.take_append_drop 4 (m.drop 4)
    rwa [List.drop_drop] at h'
  have e0 : m.take 4 ++ m.drop 4 = m := List.take_append_drop 4 m
  show m.take 4 ++ ((m.drop 4).take 4 ++ ((m.drop 8).take 4 ++ ((m.drop 12).take 4 ++ []))) = m
  rw [List.append_nil, e12, e8, e4, e0]

theorem floatList_floats (l : List ℚ) :
    floatList (l.map PyVal.float) = .ok l := by
  induction l with
  | nil => rfl
  | cons a t ih => simp [floatList, pyFloat, isNum, numVal, ih]

theorem floatList_all_num (l : List PyVal) (h : l.all isNum = true) :
    floatList l = .ok (l.map numVal) := by
  induction l with
  | nil => rfl
  | cons a t ih =>
    simp only [List.all_cons, Bool.and_eq_true] at h
    simp [floatList, pyFloat, h.1, ih h.2]

theorem floatList_not_num (l : List PyVal) (h : l.all isNum = false) :
    floatList l = .error () := by
  induction l with
  | nil => simp [List.all_nil] at h
  | cons a t ih =>
    simp only [List.all_cons, Bool.and_eq_false_iff] at h
    rcases h with h | h
    · simp [floatList, pyFloat, h]
    · cases ha : isNum a <;> simp [floatList, pyFloat, ha, ih h]

theorem parse_core_encode (M : List (List ℚ)) (h4 : M.length = 4)
    (hr : ∀ r ∈ M, r.length = 4) :
    parse_core (encodeMatrix M) = .ok (some M.flatten) := by
  have hlen : (encRows M).length = 4 := by simp [encRows, h4]
  have hrows : (encRows M).all isRow4 = true := by
    simp only [encRows, List.all_eq_true, List.mem_map]
    rintro x ⟨r, hrM, rfl⟩
    simp [isRow4, hr r hrM]
  have hmap : (encRows M).map rowElems = M.map (fun r => r.map PyVal.float) := by
    simp [encRows, List.map_map, rowElems, Function.comp]
  have hfl : ((encRows M).map rowElems).flatten = M.flatten.map PyVal.float := by
    rw [hmap, ← List.map_flatten]
  show parse_core (.list (encRows M)) = .ok (some M.flatten)
  rw [parse_core]
  rw [if_neg (by simp [hlen]), if_pos ⟨hlen, hrows⟩, hfl, floatList_floats]

theorem houMatrix4_encode (M : List (List ℚ)) (h4 : M.length = 4)
    (hr : ∀ r ∈ M, r.length = 4) :
    houMatrix4 (encRows M) = .ok M := by
  have hlen : (encRows M).length = 4 := by simp [encRows, h4]
  have hrows : (encRows M).all isRow4 = true := by
    simp only [encRows, List.all_eq_true, List.mem_map]
    rintro x ⟨r, hrM, rfl⟩
    simp [isRow4, hr r hrM]
  rw [houMatrix4, if_pos ⟨hlen, hrows⟩]
  clear h4 hlen hrows
  induction M with
  | nil => rfl
  | cons r t ih =>
    have hr' : ∀ x ∈ t, x.length = 4 := fun x hx => hr x (List.mem_cons_of_mem _ hx)
    simp [encRows, rowsFloatList, rowElems, floatList_floats] at ih ⊢
    rw [ih hr']

/-! ## Claim theorems C1, C2, C5 -/

/-- C1: exporter/importer matrix round-trip.  Chunking a flat row-major
16-list into the 4x4 nested form written by `_world_matrix`, then
flattening it back — either through the 4x4 branch of `_parse_matrix16`
or through the helper importer's comprehension — recovers exactly the
original 16 values in the original order. -/
theorem C1_matrix_chunk_roundtrip (m : List ℚ) (h : m.length = 16) :
    flat_matrix_list (world_matrix_chunk m) = m ∧
    ∀ load : String → Option PyVal,
      parse_matrix16 load (encodeMatrix (world_matrix_chunk m)) = .ok (some m) := by
  have hr : ∀ r ∈ world_matrix_chunk m, r.length = 4 := by
    intro r hrm
    simp only [world_matrix_chunk, List.mem_cons, List.not_mem_nil, or_false] at hrm
    rcases hrm with rfl | rfl | rfl | rfl <;> simp [pySlice, h]
  have hflat := flatten_chunk m h
  refine ⟨hflat, fun load => ?_⟩
  show parse_core (encodeMatrix (world_matrix_chunk m)) = .ok (some m)
  rw [parse_core_encode _ (by simp [world_matrix_chunk]) hr]
  exact congrArg (fun x => Except.ok (some x)) hflat

/-- C1 witness at a concrete 16-entry matrix. -/
theorem C1_matrix_chunk_roundtrip_witness :
    flat_matrix_list (world_matrix_chunk
        [0, 1, 2, 3, 4, 5, 6, 7, 8, 9, 10, 11, 12, 13, 14, 15]) =
      [0, 1, 2, 3, 4, 5, 6, 7, 8, 9, 10, 11, 12, 13, 14, 15] ∧
    parse_matrix16 (fun _ => none) (encodeMatrix (world_matrix_chunk
        [0, 1, 2, 3, 4, 5, 6, 7, 8, 9, 10, 11, 12, 13, 14, 15])) =
      .ok (some [0, 1, 2, 3, 4, 5, 6, 7, 8, 9, 10, 11, 12, 13, 14, 15]) :=
  ⟨(C1_matrix_chunk_roundtrip _ (by decide)).1,
   (C1_matrix_chunk_roundtrip _ (by decide)).2 _⟩

/-- C2: converting a Maya world matrix for Houdini multiplies exactly the
three translation entries (row 3, columns 0-2 of the row-major 4x4; flat
indices 12-14) by the unit scale, leaving the other 13 entries unchanged;
`UNIT_SCALE = 0.01`; and the translation prim attributes written by the
metadata importer are the parsed matrix's entries 12-14 times `0.01`. -/
theorem C2_unit_scale_scales_only_translation
    (r0 r1 r2 : List ℚ) (x y z w s : ℚ)
    (h0 : r0.length = 4) (h1 : r1.length = 4) (h2 : r2.length = 4) :
    matrix_list_to_hou_matrix4 (encodeMatrix [r0, r1, r2, [x, y, z, w]]) s
      = .ok [r0, r1, r2, [x * s, y * s, z * s, w]] ∧
    UNIT_SCALE = 1 / 100 ∧
    (∀ m : List ℚ, m.length = 16 →
      (∀ load : String → Option PyVal,
        parse_matrix16 load (encodeMatrix (world_matrix_chunk m)) = .ok (some m)) ∧
      worldMatrix_translation m =
        [m.getD 12 0 * UNIT_SCALE, m.getD 13 0 * UNIT_SCALE, m.getD 14 0 * UNIT_SCALE] ∧
      LEGO_startPosition_translation m = worldMatrix_translation m) := by
  refine ⟨?_, rfl, fun m hm => ⟨fun load => ?_, rfl, rfl⟩⟩
  · show matrix_list_to_hou_matrix4 (.list (encRows [r0, r1, r2, [x, y, z, w]])) s
      = .ok [r0, r1, r2, [x * s, y * s, z * s, w]]
    have : encRows [r0, r1, r2, [x, y, z, w]] =
        [.list (r0.map PyVal.float), .list (r1.map PyVal.float),
         .list (r2.map PyVal.float),
         .list [.float x, .float y, .float z, .float w]] := by
      simp [encRows]
    rw [this]
    show houMatrix4 [.list (r0.map PyVal.float), .list (r1.map PyVal.float),
         .list (r2.map PyVal.float),
         .list [.float (x * s), .float (y * s), .float (z * s), .float w]]
      = .ok [r0, r1, r2, [x * s, y * s, z * s, w]]
    have e : [PyVal.list (r0.map PyVal.float), .list (r1.map PyVal.float),
         .list (r2.map PyVal.float),
         .list [.float (x * s), .float (y * s), .float (z * s), .float w]] =
        encRows [r0, r1, r2, [x * s, y * s, z * s, w]] := by
      simp [encRows]
    rw [e, houMatrix4_encode]
    · simp
    · intro r hr
      simp only [List.mem_cons, List.not_mem_nil, or_false] at hr
      rcases hr with rfl | rfl | rfl | rfl <;> simp [h0, h1, h2]
  · have hr : ∀ r ∈ world_matrix_chunk m, r.length = 4 := by
      intro r hrm
      simp only [world_matrix_chunk, List.mem_cons, List.not_mem_nil, or_false] at hrm
      rcases hrm with rfl | rfl | rfl | rfl <;> simp [pySlice, hm]
    show parse_core (encodeMatrix (world_matrix_chunk m)) = .ok (some m)
    rw [parse_core_encode _ (by simp [world_matrix_chunk]) hr]
    exact congrArg (fun x => Except.ok (some x)) (flatten_chunk m hm)

/-- C5 counterexample: a value of the 4x4 shape (4 rows, each of length 4)
whose first entry is `null` does not make `_parse_matrix16` return the
flattened 16-tuple; `float(None)` raises, so the call raises (`.error`)
instead of returning a value. -/
theorem C5_counterexample :
    parse_matrix16 (fun _ => none)
      (.list [.list [.pynone, .float 0, .float 0, .float 0],
              .list [.float 0, .float 1, .float 0, .float 0],
              .list [.float 0, .float 0, .float 1, .float 0],
              .list [.float 0, .float 0, .float 0, .float 1]]) = .error () := by
  rfl

/-- C5 (amended): `_parse_matrix16` by shape.  A list of exactly 16
ints/floats yields the 16 floats; a list of 4 rows each of length 4 yields
the row-major flattening when every entry is an int/float, and raises when
some entry is a non-numeric non-string value (such as `null`); a string is
first JSON-decoded and the decoded value handled by the same two cases,
decoding failure yielding `None`; every other value yields `None`. -/
theorem C5_parse_matrix16_by_shape (load : String → Option PyVal) :
    (∀ l : List PyVal, l.length = 16 → l.all isNum = true →
        parse_matrix16 load (.list l) = .ok (some (l.map numVal))) ∧
    (∀ l : List PyVal, l.length = 4 → l.all isRow4 = true →
        ((l.map rowElems).flatten.all isNum = true →
          parse_matrix16 load (.list l) =
            .ok (some ((l.map rowElems).flatten.map numVal))) ∧
        ((∀ x ∈ (l.map rowElems).flatten, ∀ s, x ≠ .str s) →
          (l.map rowElems).flatten.all isNum = false →
          parse_matrix16 load (.list l) = .error ())) ∧
    (∀ s, parse_matrix16 load (.str s) =
        match load s with
        | none => .ok none
        | some w => parse_core w) ∧
    (∀ l : List PyVal, ¬(l.length = 16 ∧ l.all isNum = true) →
        ¬(l.length = 4 ∧ l.all isRow4 = true) →
        parse_matrix16 load (.list l) = .ok none) ∧
    (∀ v : PyVal, (∀ l, v ≠ .list l) → (∀ s, v ≠ .str s) →
        parse_matrix16 load v = .ok none) := by
  refine ⟨fun l h16 hnum => ?_, fun l h4 hrows => ⟨fun hnum => ?_, fun _ hnum => ?_⟩,
    fun s => rfl, fun l hn16 hn4 => ?_, fun v hnl hns => ?_⟩
  · show parse_core (.list l) = _
    rw [parse_core, if_pos ⟨h16, hnum⟩]
  · show parse_core (.list l) = _
    rw [parse_core, if_neg (by simp [h4]), if_pos ⟨h4, hrows⟩,
      floatList_all_num _ hnum]
  · show parse_core (.list l) = _
    rw [parse_core, if_neg (by simp [h4]), if_pos ⟨h4, hrows⟩,
      floatList_not_num _ hnum]
  · show parse_core (.list l) = _
    rw [parse_core, if_neg (by simpa using hn16), if_neg (by simpa using hn4)]
  · cases v with
    | pynone => rfl
    | bool b => rfl
    | int n => rfl
    | float q => rfl
    | str s => exact absurd rfl (hns s)
    | list l => exact absurd rfl (hnl l)
    | dict l => rfl

/-- C5 witness: the 16-number case and the other-shape case at concrete
inputs. -/
theorem C5_parse_matrix16_by_shape_witness :
    parse_matrix16 (fun _ => none)
        (.list [.int 0, .int 1, .int 2, .int 3, .int 4, .int 5, .int 6, .int 7,
                .int 8, .int 9, .int 10, .int 11, .int 12, .int 13, .int 14, .int 15]) =
      .ok (some [0, 1, 2, 3, 4, 5, 6, 7, 8, 9, 10, 11, 12, 13, 14, 15]) ∧
    parse_matrix16 (fun _ => none) (.list [.int 1, .int 2]) = .ok none ∧
    parse_matrix16 (fun _ => none) (.dict []) = .ok none :=
  ⟨(C5_parse_matrix16_by_shape (fun _ => none)).1 _ (by rfl) (by rfl),
   (C5_parse_matrix16_by_shape (fun _ => none)).2.2.2.1 _
     (by intro h; exact absurd h.1 (by decide)) (by intro h; exact absurd h.1 (by decide)),
   (C5_parse_matrix16_by_shape (fun _ => none)).2.2.2.2 _
     (by intro l h; cases h) (by intro s h; cases h)⟩

/-- C7: `import_helpers` raises `FileNotFoundError` exactly when
`json_path` is not an existing file — and then before any node creation
or file I/O (no events) — and raises `ValueError` when the decoded JSON
root is not a list (given `/obj` exists, which Houdini guarantees). -/
theorem C7_import_helpers_errors (env : Env) (jp rp : String) (us : ℚ) :
    ((import_helpers env jp rp us).2 = .error .fileNotFound ↔
      env.isfile jp = false) ∧
    (env.isfile jp = false → (import_helpers env jp rp us).1 = []) ∧
    (env.isfile jp = true → env.objExists = true →
      ∀ v, env.decoded jp = some v → (∀ l, v ≠ .list l) →
        (import_helpers env jp rp us).2 = .error .valueError) := by
  cases hf : env.isfile jp with
  | false =>
    refine ⟨?_, fun _ => ?_, fun hc => absurd hc (by decide)⟩ <;>
      simp [import_helpers, hf]
  | true =>
    cases ho : env.objExists with
    | false =>
      refine ⟨?_, fun hc => absurd hc (by decide),
        fun _ hc => absurd hc (by decide)⟩
      simp [import_helpers, hf, ho]
    | true =>
      refine ⟨?_, fun hc => absurd hc (by decide),
        fun _ _ v hv hnl => ?_⟩
      · cases hd : env.decoded jp with
        | none => simp [import_helpers, hf, ho, hd]
        | some v => cases v <;> simp [import_helpers, hf, ho, hd]
      · cases v with
        | list l => exact absurd rfl (hnl l)
        | pynone => simp [import_helpers, hf, ho, hv]
        | bool b => simp [import_helpers, hf, ho, hv]
        | int n => simp [import_helpers, hf, ho, hv]
        | float q => simp [import_helpers, hf, ho, hv]
        | str s => simp [import_helpers, hf, ho, hv]
        | dict l => simp [import_helpers, hf, ho, hv]

/-- C7 witness: a missing file raises `FileNotFoundError` with no events;
a present file decoding to a dict raises `ValueError`. -/
theorem C7_import_helpers_errors_witness :
    (import_helpers ⟨fun _ => false, fun _ => none, true, []⟩
        "x.json" "/obj/h" 0).2 = .error .fileNotFound ∧
    (import_helpers ⟨fun _ => false, fun _ => none, true, []⟩
        "x.json" "/obj/h" 0).1 = [] ∧
    (import_helpers ⟨fun _ => true, fun _ => some (.dict []), true, []⟩
        "x.json" "/obj/h" 0).2 = .error .valueError :=
  ⟨(C7_import_helpers_errors ⟨fun _ => false, fun _ => none, true, []⟩
      "x.json" "/obj/h" 0).1.mpr rfl,
   (C7_import_helpers_errors ⟨fun _ => false, fun _ => none, true, []⟩
      "x.json" "/obj/h" 0).2.1 rfl,
   (C7_import_helpers_errors ⟨fun _ => true, fun _ => some (.dict []), true, []⟩
      "x.json" "/obj/h" 0).2.2 rfl rfl (.dict []) rfl (fun l h => by cases h)⟩

theorem isStr_exists (v : PyVal) (h : isStr v = true) : ∃ s, v = .str s := by
  cases v <;> first | exact ⟨_, rfl⟩ | cases h

theorem createPointFor_wf (e : PyVal) (h : wfEntry e = true) :
    createPointFor e = .ok (mkPoint e) := by
  rw [wfEntry, Bool.and_eq_true, Bool.and_eq_true] at h
  obtain ⟨⟨hd, hp⟩, ht⟩ := h
  obtain ⟨ps, hps⟩ := isStr_exists _ hp
  obtain ⟨ts, hts⟩ := isStr_exists _ ht
  rw [createPointFor, if_neg (by rw [hd]; exact Bool.true_eq_false ▸ (by simp)),
    hps, hts, mkPoint]
  rw [hps, hts]
  cases hpt : parsedTransform e <;> simp [hpt, strD]

theorem importHelperPoints_wf (l : List PyVal)
    (hwf : ∀ e ∈ l, wfEntry e = true) :
    importHelperPoints l = .ok (l.map mkPoint) := by
  induction l with
  | nil => rfl
  | cons e rest ih =>
    rw [importHelperPoints,
      createPointFor_wf e (hwf e (List.mem_cons_self _ _)),
      ih (fun x hx => hwf x (List.mem_cons_of_mem _ hx))]
    rfl

/-- C9: the helper-point loop creates exactly one point per JSON entry,
in list order, each with its `path`, `type` and `hasMesh` attributes
taken from the entry (defaults `""`, `""`, `0`); an entry with a missing,
falsy or unparsable `"transform"` matrix still yields a point, keeping
the default identity transform attribute and the default position. -/
theorem C9_one_point_per_entry (hd : List PyVal)
    (hwf : ∀ e ∈ hd, wfEntry e = true) :
    ∃ pts, importHelperPoints hd = .ok pts ∧
      pts.length = hd.length ∧
      ∀ i (hi : i < hd.length) (hp : i < pts.length),
        (pts.get ⟨i, hp⟩).path =
          strD (dictGetD (hd.get ⟨i, hi⟩) "path" (.str "")) ∧
        (pts.get ⟨i, hp⟩).type =
          strD (dictGetD (hd.get ⟨i, hi⟩) "type" (.str "")) ∧
        (pts.get ⟨i, hp⟩).hasMesh =
          (if truthy (dictGetD (hd.get ⟨i, hi⟩) "hasMesh" (.bool false))
            then 1 else 0) ∧
        (parsedTransform (hd.get ⟨i, hi⟩) = none →
          (pts.get ⟨i, hp⟩).transform = identity_matrix ∧
          (pts.get ⟨i, hp⟩).pos = [0, 0, 0]) ∧
        (∀ t, parsedTransform (hd.get ⟨i, hi⟩) = some t →
          (pts.get ⟨i, hp⟩).transform = t ∧
          (pts.get ⟨i, hp⟩).pos = [t.getD 12 0, t.getD 13 0, t.getD 14 0]) := by
  refine ⟨hd.map mkPoint, importHelperPoints_wf hd hwf, by simp, ?_⟩
  intro i hi hp
  have hget : (hd.map mkPoint).get ⟨i, hp⟩ = mkPoint (hd.get ⟨i, hi⟩) := by
    simp [List.get_eq_getElem, List.getElem_map]
  rw [hget]
  generalize hd.get ⟨i, hi⟩ = e
  cases hpt : parsedTransform e with
  | none =>
    refine ⟨by simp [mkPoint, hpt], by simp [mkPoint, hpt],
      by simp [mkPoint, hpt], fun _ => ⟨by simp [mkPoint, hpt],
        by simp [mkPoint, hpt]⟩,
      fun t ht => by cases ht⟩
  | some t =>
    refine ⟨by simp [mkPoint, hpt], by simp [mkPoint, hpt],
      by simp [mkPoint, hpt], ?_, ?_⟩
    · intro hc
      cases hc
    · intro t' ht'
      cases ht'
      exact ⟨by simp [mkPoint, hpt], by simp [mkPoint, hpt]⟩

/-- C9 witness: one empty-object entry yields one point with the default
attributes, identity transform and origin position. -/
theorem C9_one_point_per_entry_witness :
    ∃ pts, importHelperPoints [PyVal.dict []] = .ok pts ∧
      pts.length = ([PyVal.dict []] : List PyVal).length ∧
      ∀ i (hi : i < ([PyVal.dict []] : List PyVal).length) (hp : i < pts.length),
        (pts.get ⟨i, hp⟩).path =
          strD (dictGetD (([PyVal.dict []] : List PyVal).get ⟨i, hi⟩) "path" (.str "")) ∧
        (pts.get ⟨i, hp⟩).type =
          strD (dictGetD (([PyVal.dict []] : List PyVal).get ⟨i, hi⟩) "type" (.str "")) ∧
        (pts.get ⟨i, hp⟩).hasMesh =
          (if truthy (dictGetD (([PyVal.dict []] : List PyVal).get ⟨i, hi⟩)
              "hasMesh" (.bool false)) then 1 else 0) ∧
        (parsedTransform (([PyVal.dict []] : List PyVal).get ⟨i, hi⟩) = none →
          (pts.get ⟨i, hp⟩).transform = identity_matrix ∧
          (pts.get ⟨i, hp⟩).pos = [0, 0, 0]) ∧
        (∀ t, parsedTransform (([PyVal.dict []] : List PyVal).get ⟨i, hi⟩) = some t →
          (pts.get ⟨i, hp⟩).transform = t ∧
          (pts.get ⟨i, hp⟩).pos = [t.getD 12 0, t.getD 13 0, t.getD 14 0]) :=
  C9_one_point_per_entry [PyVal.dict []] (by decide)

/-- C10: the heap model of `matrix_list_to_hou_matrix4` leaves every
pre-existing store cell — in particular every row of the argument matrix
object — unchanged: the scaling is applied to freshly allocated copies
only, whether or not the call succeeds. -/
theorem C10_matrix_call_no_mutation (store : List (List ℚ)) (mrefs : List Nat)
    (s : ℚ) (a : Nat) (ha : a < store.length) :
    ((matrix_heap_call store mrefs s).1).get? a = store.get? a := by
  have hne : store.length + 3 ≠ a := by omega
  have happ : (store ++ mrefs.map (fun x => store.getD x [])).get? a
      = store.get? a := by
    simp [List.getElem?_append_left ha]
  rw [matrix_heap_call]
  cases hc : (mrefs.map (fun x => store.getD x [])).get? 3 with
  | none => simpa [hc] using happ
  | some r =>
    match r with
    | [] => simpa [hc] using happ
    | [x] => simpa [hc] using happ
    | [x, y] => simpa [hc] using happ
    | x :: y :: z :: rest =>
      rw [show ((match (some (x :: y :: z :: rest) : Option (List ℚ)) with
        | some (a :: b :: c :: rest) =>
          ((store ++ mrefs.map (fun x => store.getD x [])).set (store.length + 3)
            (a * s :: b * s :: c * s :: rest),
           some (List.range' store.length mrefs.length))
        | _ => (store ++ mrefs.map (fun x => store.getD x []), none)) :
          List (List ℚ) × Option (List Nat)).1 =
        (store ++ mrefs.map (fun x => store.getD x [])).set (store.length + 3)
          (x * s :: y * s :: z * s :: rest) from rfl]
      rw [List.get?_eq_getElem?, List.get?_eq_getElem?] at happ ⊢
      rw [List.getElem?_set_ne hne, happ]

/-- C10 witness at a concrete store and matrix object. -/
theorem C10_matrix_call_no_mutation_witness :
    ((matrix_heap_call [[1, 2, 3, 4], [5, 6, 7, 8], [9, 10, 11, 12],
        [100, 200, 300, 1]] [0, 1, 2, 3] UNIT_SCALE).1).get? 3 =
      ([[1, 2, 3, 4], [5, 6, 7, 8], [9, 10, 11, 12],
        [100, 200, 300, 1]] : List (List ℚ)).get? 3 :=
  C10_matrix_call_no_mutation _ [0, 1, 2, 3] UNIT_SCALE 3 (by decide)

/-- C2 witness at a concrete matrix and the default scale. -/
theorem C2_unit_scale_scales_only_translation_witness :
    matrix_list_to_hou_matrix4
        (encodeMatrix [[1, 0, 0, 0], [0, 1, 0, 0], [0, 0, 1, 0], [100, 200, 300, 1]])
        UNIT_SCALE
      = .ok [[1, 0, 0, 0], [0, 1, 0, 0], [0, 0, 1, 0],
             [100 * UNIT_SCALE, 200 * UNIT_SCALE, 300 * UNIT_SCALE, 1]] :=
  (C2_unit_scale_scales_only_translation
    [1, 0, 0, 0] [0, 1, 0, 0] [0, 0, 1, 0] 100 200 300 1 UNIT_SCALE
    (by decide) (by decide) (by decide)).1

end PiLego
